import Mathlib

/-!
Verification development for the GLEIF LEI resolution engine
(`equity_aggregator/adapters/data_sources/enrichment_feeds/gleif`).

The Python source is shallowly embedded: pure helpers become Lean
functions over `String` / `List` / `ℚ`, the stateful orchestrator becomes
explicit state passing, and the async double-checked locking of
`GleifFeed._ensure_index_loaded` becomes a small labelled transition
system whose steps are the atomic regions between `await` points of the
cooperative (single-process asyncio) scheduler.

Python string operations are modelled on their ASCII fragment, which is
the fragment exercised by the feed (ISINs, LEIs, latin company names):
`str.upper` maps characters through `Char.toUpper`, `str.strip()` drops
leading and trailing whitespace, `str.split()` splits on whitespace runs
discarding empty pieces.  Python floats are modelled as rationals.

The rapidfuzz similarity `fuzz.WRatio` is external to the repository and
is modelled as an abstract score function `String → String → ℚ`.  Its
`score_cutoff=70` keyword follows the rapidfuzz contract: a similarity
strictly below the cutoff is reported as `0`, a similarity at or above
the cutoff is reported unchanged, and similarities lie in `[0, 100]`
(`scoreCutoffContract` below).  The similarity does attain the cutoff
exactly; for instance the indel ratio of `"aaaaaaaaaa"` against
`"aaaaaaabbb"` is `2·7/20 = 70` while the token variants scaled by `0.95`
stay below it, so the weighted ratio is exactly `70`.
-/

namespace GleifSpec

/-! ## Python string primitives (ASCII fragment) -/

/-- Python `s.upper()` on the ASCII fragment: uppercase every character. -/
def pyUpper (s : String) : String :=
  ⟨s.toList.map Char.toUpper⟩

/-- Python `s.lstrip(chars)`: drop the leading characters that belong to `cs`. -/
def lstripChars (cs : List Char) (s : String) : String :=
  ⟨s.toList.dropWhile (fun c => c ∈ cs)⟩

/-- Python `s.rstrip(chars)`: drop the trailing characters that belong to `cs`. -/
def rstripChars (cs : List Char) (s : String) : String :=
  ⟨(s.toList.reverse.dropWhile (fun c => c ∈ cs)).reverse⟩

/-- Python `s.strip(chars)`: drop characters of `cs` from both ends. -/
def stripChars (cs : List Char) (s : String) : String :=
  rstripChars cs (lstripChars cs s)

/-- Python `s.strip()` (no argument): drop whitespace from both ends. -/
def pyTrim (s : String) : String :=
  ⟨((s.toList.dropWhile Char.isWhitespace).reverse.dropWhile Char.isWhitespace).reverse⟩

/-- Python `s.replace(".", "")`: remove every dot. -/
def removeDots (s : String) : String :=
  ⟨s.toList.filter (fun c => c ≠ '.')⟩

/-- Helper for Python `s.split()`: split a character list on whitespace runs,
accumulating the current (reversed) word in the first argument; empty pieces
are dropped, exactly as `str.split()` with no argument does. -/
def splitWordsAux : List Char → List Char → List (List Char)
  | cur, [] => if cur = [] then [] else [cur.reverse]
  | cur, c :: cs =>
    if c.isWhitespace then
      if cur = [] then splitWordsAux [] cs else cur.reverse :: splitWordsAux [] cs
    else
      splitWordsAux (c :: cur) cs

/-- Python `name.split()`: whitespace-delimited words, no empty pieces. -/
def splitWords (s : String) : List String :=
  (splitWordsAux [] s.toList).map String.mk

/-- Python `" ".join(words)`. -/
def joinSpace : List String → String
  | [] => ""
  | [w] => w
  | w :: ws => w ++ " " ++ joinSpace ws

/-! ## `gleif/_utils/normalise.py` -/

/-- The frozenset `_SINGLE_WORD_SUFFIXES` of `normalise.py`. -/
def SINGLE_WORD_SUFFIXES : List String :=
  ["AB", "AG", "ASA", "BV", "CO", "CORP", "CORPORATION", "GMBH", "INC",
   "INCORPORATED", "KG", "KGAA", "LIMITED", "LLC", "LP", "LTD", "NV",
   "OYJ", "PLC", "SA", "SARL", "SAS", "SE", "SPA"]

/-- The tuple `_MULTI_WORD_SUFFIXES` of `normalise.py`. -/
def MULTI_WORD_SUFFIXES : List (List String) :=
  [["PUBLIC", "LIMITED", "COMPANY"]]

/-- One iteration of the loop body of `_try_strip_multi_word`: check a single
multi-word suffix against the trailing words of `words`. -/
def matchMultiWordSuffix (words : List String) (suffixWords : List String) :
    Option String :=
  let n := suffixWords.length
  if words.length ≤ n then
    none
  else
    let tail := (words.drop (words.length - n)).map
      (fun w => stripChars ['.', ','] (pyUpper w))
    if tail = suffixWords then
      some (rstripChars [' ', ',', '.']
        (joinSpace (words.take (words.length - n))))
    else
      none

/-- The function `_try_strip_multi_word` of `normalise.py`. -/
def tryStripMultiWord (words : List String) : Option String :=
  MULTI_WORD_SUFFIXES.findSome? (matchMultiWordSuffix words)

/-- The function `_try_strip_single_word` of `normalise.py`. -/
def tryStripSingleWord (words : List String) : Option String :=
  if words.length ≤ 1 then
    none
  else
    match words.getLast? with
    | none => none
    | some last =>
      let normalised := rstripChars [','] (removeDots (pyUpper last))
      if normalised ∈ SINGLE_WORD_SUFFIXES then
        some (rstripChars [' ', ',', '.'] (joinSpace words.dropLast))
      else
        none

/-- The function `strip_corporate_suffix` of `normalise.py`. -/
def strip_corporate_suffix (name : String) : String :=
  let words := splitWords name
  match tryStripMultiWord words with
  | some stripped => stripped
  | none =>
    match tryStripSingleWord words with
    | some stripped => stripped
    | none => name

/-! ## `gleif/_utils/fuzzy.py`

The score argument abstracts `fuzz.WRatio(equity_name, legal_name,
processor=utils.default_process)`; in `rank_candidates` the source passes
`score_cutoff=70` on top of it, which is captured by
`scoreCutoffContract`. -/

/-- Contract of `fuzz.WRatio(..., score_cutoff=70)`: rapidfuzz reports `0`
for a similarity strictly below the cutoff and the unchanged similarity,
which lies in `[0, 100]`, otherwise. -/
def scoreCutoffContract (score : String → String → ℚ) : Prop :=
  ∀ a b : String, score a b = 0 ∨ (70 ≤ score a b ∧ score a b ≤ 100)

/-- A score function that is constantly at the cutoff.  It satisfies
`scoreCutoffContract`, and `fuzz.WRatio` does attain `70` exactly (see the
module docstring), so it is an admissible abstraction of
`fuzz.WRatio(..., score_cutoff=70)` on the inputs involved. -/
def score70 : String → String → ℚ := fun _ _ => 70

/-- The scored triple `(score, legal_name, lei)` built inside
`rank_candidates`. -/
def scoreTriple (score : String → String → ℚ) (equity_name : String)
    (c : String × String) : ℚ × String × String :=
  (score equity_name c.1, c.1, c.2)

/-- Stable insertion (by strictly greater score first) used to model Python
`sorted(scored, key=lambda t: t[0], reverse=True)`.  An element is placed
before the first element whose score is less than or equal to its own, so
earlier input elements precede later ones on ties. -/
def insertByScoreDesc (x : ℚ × String × String) :
    List (ℚ × String × String) → List (ℚ × String × String)
  | [] => [x]
  | y :: ys => if y.1 ≤ x.1 then x :: y :: ys else y :: insertByScoreDesc x ys

/-- Stable descending sort on the score component.  Python's `sorted` with
`reverse=True` is the stable sort by descending key, and the stable sort
for a total preorder is unique, so stable insertion sort models it
exactly. -/
def sortByScoreDesc : List (ℚ × String × String) → List (ℚ × String × String)
  | [] => []
  | x :: xs => insertByScoreDesc x (sortByScoreDesc xs)

/-- The function `rank_candidates` of `fuzzy.py`: score every candidate,
sort by descending score, keep the strictly positive scores, and drop the
score component. -/
def rank_candidates (score : String → String → ℚ) (equity_name : String)
    (candidates : List (String × String)) : List (String × String) :=
  match candidates with
  | [] => []
  | _ :: _ =>
    let scored := candidates.map (scoreTriple score equity_name)
    ((sortByScoreDesc scored).filter (fun t => decide (0 < t.1))).map
      (fun t => (t.2.1, t.2.2))

/-- The accumulator loop of `select_best_parent`: keep the current best
score and LEI, replacing them only on a strictly greater score. -/
def bestParentLoop (score : String → String → ℚ) (equity_name : String) :
    ℚ → String → List (String × String) → String
  | _, bestLei, [] => bestLei
  | bestScore, bestLei, (parentName, parentLei) :: rest =>
    if bestScore < score equity_name parentName then
      bestParentLoop score equity_name (score equity_name parentName) parentLei rest
    else
      bestParentLoop score equity_name bestScore bestLei rest

/-- The function `select_best_parent` of `fuzzy.py`. -/
def select_best_parent (score : String → String → ℚ) (equity_name : String)
    (parents : List (String × String)) : Option String :=
  match parents with
  | [] => none
  | (parentName, parentLei) :: rest =>
    some (bestParentLoop score equity_name
      (score equity_name parentName) parentLei rest)

/-- Modelled from the spec's words for `select_best_parent` (§4.4): none on
an empty list, otherwise the LEI of the first parent attaining the highest
similarity score against the equity name. -/
def specBestParent (score : String → String → ℚ) (equity_name : String) :
    List (String × String) → Option String
  | [] => none
  | p :: rest =>
    let m := rest.foldl (fun acc q => max acc (score equity_name q.1))
      (score equity_name p.1)
    ((p :: rest).find? (fun q => decide (score equity_name q.1 = m))).map
      Prod.snd

/-- The function `_try_parent_traversal` of `gleif.py`: the best parent's
LEI when a parent exists, otherwise the candidate's own LEI. -/
def try_parent_traversal (score : String → String → ℚ)
    (equity_name candidate_lei : String)
    (parents : List (String × String)) : String :=
  match select_best_parent score equity_name parents with
  | some parent_lei => parent_lei
  | none => candidate_lei

/-! ## `gleif/download.py` (`_parse_csv`) -/

/-- One CSV data row under the header `LEI,ISIN`. -/
structure CsvRow where
  lei : String
  isin : String

/-- The normalisation `row.get(col, "").strip().upper()` applied to a field. -/
def normCsvField (s : String) : String :=
  pyUpper (pyTrim s)

/-- Python's `expr or None` idiom on a string: `none` when the string is
empty (falsy), the string otherwise. -/
def truthyOrNone (s : String) : Option String :=
  if s = "" then none else some s

/-- The two normalised fields of a row, `none` when either is falsy; the
loop body of `_parse_csv` assigns exactly when this is `some`. -/
def parseRow (row : CsvRow) : Option (String × String) :=
  match truthyOrNone (normCsvField row.isin),
        truthyOrNone (normCsvField row.lei) with
  | some isin, some lei => some (isin, lei)
  | _, _ => none

/-- One iteration of the row loop of `_parse_csv`: `index[isin] = lei` when
both normalised fields are truthy, else no change. -/
def parseStep (index : String → Option String) (row : CsvRow) :
    String → Option String :=
  match parseRow row with
  | some (isin, lei) => fun k => if k = isin then some lei else index k
  | none => index

/-- The function `_parse_csv` of `download.py`: fold the rows left to right
into a dict, normalising both fields, skipping a row when either normalised
field is empty, and overwriting any previous binding of the same ISIN. -/
def parse_csv (rows : List CsvRow) : String → Option String :=
  rows.foldl parseStep (fun _ => none)

/-- Modelled from the spec's words for CSV parsing (§4.2): trim and
upper-case both fields, keep only rows where both normalised fields are
non-empty, and resolve a key to the LEI of the last such row carrying it. -/
def csvIndexSpec (rows : List CsvRow) (k : String) : Option String :=
  ((rows.filterMap (fun row =>
      let isin := pyUpper (pyTrim row.isin)
      let lei := pyUpper (pyTrim row.lei)
      if isin = "" ∨ lei = "" then none else some (isin, lei))).reverse.find?
    (fun p => decide (p.1 = k))).map Prod.snd

/-! ## `gleif/_utils/backoff.py`

Ambient randomness (`random.random()`) is modelled by an explicit draw
sequence `rand : Nat → ℚ`; the i-th loop iteration consumes `rand i`. -/

/-- The loop of `backoff_delays`: current delay, current draw position,
remaining attempts. -/
def backoffGo (cap jitter : ℚ) (rand : Nat → ℚ) :
    ℚ → Nat → Nat → List ℚ
  | _, _, 0 => []
  | delay, i, n + 1 =>
    let delta := delay * jitter * (2 * rand i - 1)
    max 0 (min (delay + delta) cap) ::
      backoffGo cap jitter rand (min (delay * 2) cap) (i + 1) n

/-- The generator `backoff_delays` of `backoff.py`, as the list of the
values it yields. -/
def backoff_delays (base cap jitter : ℚ) (attempts : Nat) (rand : Nat → ℚ) :
    List ℚ :=
  backoffGo cap jitter rand base 0 attempts

/-! ## `gleif/gleif.py` — the orchestrator, post index load

The per-name cache (`load_cache_entry` / `save_cache_entry` under the
`gleif_names` cache key) is a `String → Option String` map, `none` meaning
the name was never stored.  The live API tier is abstracted by
`candidatesOf` (the result of `search_by_name`, which degrades to `[]` on
any transport, HTTP or parse failure) and `parentsOf` (the result of
`fetch_parents`, likewise degrading to `[]`).  `fetch_equity` additionally
returns the updated name cache and two observation flags: whether the
name tier was consulted at all, and whether the live API tier ran. -/

/-- An in-memory ISIN → LEI index (a loaded Python dict). -/
abbrev IsinIndex := String → Option String

/-- The per-name result cache. -/
abbrev NameCache := String → Option String

/-- The module constant `_NO_MATCH_SENTINEL = ""` of `gleif.py`. -/
def NO_MATCH_SENTINEL : String := ""

/-- The function `_resolve_cached_value` of `gleif.py`. -/
def resolve_cached_value (cached : String) : Option String :=
  if cached = NO_MATCH_SENTINEL then none else some cached

/-- The function `_cache_name_result` of `gleif.py`: store the LEI on
success, the sentinel on a miss. -/
def cache_name_result (cache : NameCache) (name : String)
    (lei : Option String) : NameCache :=
  fun k =>
    if k = name then
      some (match lei with | some l => l | none => NO_MATCH_SENTINEL)
    else cache k

/-- The method `GleifFeed._lookup_by_isin`: `none` when no ISIN was
supplied or the index is unavailable, otherwise a dict lookup. -/
def lookup_by_isin (isin_index : Option IsinIndex) (isin : Option String) :
    Option String :=
  match isin, isin_index with
  | none, _ => none
  | some _, none => none
  | some i, some index => index i

/-- The function `_resolve_lei_from_api` of `gleif.py`: search, rank, and
traverse to the best parent of the best-ranked candidate. -/
def resolve_lei_from_api (score : String → String → ℚ)
    (candidatesOf parentsOf : String → List (String × String))
    (name : String) : Option String :=
  match rank_candidates score name (candidatesOf name) with
  | [] => none
  | (_, best_lei) :: _ =>
    some (try_parent_traversal score name best_lei (parentsOf best_lei))

/-- The method `GleifFeed._search_gleif_api`: resolve via the live API and
unconditionally cache the outcome (LEI or sentinel) for the name. -/
def search_gleif_api (score : String → String → ℚ)
    (candidatesOf parentsOf : String → List (String × String))
    (cache : NameCache) (name : String) : Option String × NameCache :=
  let lei := resolve_lei_from_api score candidatesOf parentsOf name
  (lei, cache_name_result cache name lei)

/-- The method `GleifFeed._lookup_by_name`: cache hit short-circuits
(sentinel decoded to `none`), cache miss runs the live search.  The final
component records whether the live API tier ran. -/
def lookup_by_name (score : String → String → ℚ)
    (candidatesOf parentsOf : String → List (String × String))
    (cache : NameCache) (name : String) :
    Option String × NameCache × Bool :=
  match cache name with
  | some cached => (resolve_cached_value cached, cache, false)
  | none =>
    let result := search_gleif_api score candidatesOf parentsOf cache name
    (result.1, result.2, true)

/-- Python `str(isin)` of the optional ISIN in the failure message. -/
def pyOptStr : Option String → String
  | none => "None"
  | some s => s

/-- The `LookupError` message raised by `fetch_equity`. -/
def noLeiMessage (name : String) (isin : Option String) : String :=
  "No LEI found for " ++ name ++ " (ISIN: " ++ pyOptStr isin ++ ")"

/-- The successful payload of `fetch_equity`. -/
structure FetchResult where
  name : String
  symbol : String
  isin : Option String
  lei : String
deriving DecidableEq

/-- The method `GleifFeed.fetch_equity` after the index has been loaded:
ISIN tier first, then the name tier, then a `LookupError`.  Returns the
result, the updated name cache, whether the name tier was consulted, and
whether the live API tier ran. -/
def fetch_equity (isin_index : Option IsinIndex) (cache : NameCache)
    (score : String → String → ℚ)
    (candidatesOf parentsOf : String → List (String × String))
    (symbol name : String) (isin : Option String) :
    Except String FetchResult × NameCache × Bool × Bool :=
  match lookup_by_isin isin_index isin with
  | some lei => (Except.ok ⟨name, symbol, isin, lei⟩, cache, false, false)
  | none =>
    match lookup_by_name score candidatesOf parentsOf cache name with
    | (some lei, cache2, apiRan) =>
      (Except.ok ⟨name, symbol, isin, lei⟩, cache2, true, apiRan)
    | (none, cache2, apiRan) =>
      (Except.error (noLeiMessage name isin), cache2, true, apiRan)

/-! ## `gleif/gleif.py` — index construction -/

/-- The function `_download_and_cache` of `gleif.py`, with the awaited
`download_and_build_isin_index` outcome passed explicitly: any raised
exception is caught and converted to `none` (index unavailable); no
exception propagates. -/
def download_and_cache (downloadResult : Except String IsinIndex) :
    Option IsinIndex :=
  match downloadResult with
  | Except.error _ => none
  | Except.ok index => some index

/-- The function `_get_index` of `gleif.py`: a cached index wins, otherwise
download and cache. -/
def get_index (cachedIndex : Option IsinIndex)
    (downloadResult : Except String IsinIndex) : Option IsinIndex :=
  match cachedIndex with
  | some index => some index
  | none => download_and_cache downloadResult

/-- The fail-open behaviour of `api.py` (`_fetch_with_retry` /
`_safe_parse`): a transport error, HTTP failure or malformed payload
degrades the search result to the empty list. -/
def degradedSearch (response : Except String (List (String × String))) :
    List (String × String) :=
  match response with
  | Except.error _ => []
  | Except.ok results => results

/-! ## `GleifFeed._ensure_index_loaded` as a transition system

Tasks run `fetch_equity` concurrently under asyncio; the code between two
suspension points executes atomically.  The suspension points of
`_ensure_index_loaded` are the lock acquisition and the `await _get_index`
call, giving the atomic steps below.  `res` abstracts the value the single
`_get_index` call returns; `downloads` counts how many `_get_index` calls
have been started. -/

/-- Program counter of one task inside `_ensure_index_loaded`. -/
inductive TaskPc where
  | start
  | waiting
  | critical
  | downloading
  | done
deriving DecidableEq

/-- Shared feed state plus the program counter of each of the `n` tasks. -/
structure FeedState (n : Nat) where
  loaded : Bool
  lockHeld : Bool
  isinIndex : Option IsinIndex
  downloads : Nat
  pc : Fin n → TaskPc

/-- Cold feed: no index, lock free, all tasks about to enter
`_ensure_index_loaded`. -/
def initState (n : Nat) : FeedState n :=
  { loaded := false
    lockHeld := false
    isinIndex := none
    downloads := 0
    pc := fun _ => TaskPc.start }

/-- Atomic steps of `_ensure_index_loaded`.  `fastPathHit`/`fastPathMiss`
are the unlocked `if self._loaded` check; `acquireLock` is `async with
self._lock` succeeding (only when the lock is free — waiters stay blocked);
`recheckHit`/`startDownload` are the double-check under the lock;
`finishDownload` is the resumption after `await _get_index`, which
assigns `_isin_index`, sets `_loaded`, and releases the lock with no
intervening suspension point. -/
inductive EnsureStep (n : Nat) (res : Option IsinIndex) :
    FeedState n → FeedState n → Prop where
  | fastPathHit (s : FeedState n) (i : Fin n) :
      s.pc i = TaskPc.start → s.loaded = true →
      EnsureStep n res s { s with pc := Function.update s.pc i TaskPc.done }
  | fastPathMiss (s : FeedState n) (i : Fin n) :
      s.pc i = TaskPc.start → s.loaded = false →
      EnsureStep n res s { s with pc := Function.update s.pc i TaskPc.waiting }
  | acquireLock (s : FeedState n) (i : Fin n) :
      s.pc i = TaskPc.waiting → s.lockHeld = false →
      EnsureStep n res s
        { s with lockHeld := true
                 pc := Function.update s.pc i TaskPc.critical }
  | recheckHit (s : FeedState n) (i : Fin n) :
      s.pc i = TaskPc.critical → s.loaded = true →
      EnsureStep n res s
        { s with lockHeld := false
                 pc := Function.update s.pc i TaskPc.done }
  | startDownload (s : FeedState n) (i : Fin n) :
      s.pc i = TaskPc.critical → s.loaded = false →
      EnsureStep n res s
        { s with downloads := s.downloads + 1
                 pc := Function.update s.pc i TaskPc.downloading }
  | finishDownload (s : FeedState n) (i : Fin n) :
      s.pc i = TaskPc.downloading →
      EnsureStep n res s
        { s with isinIndex := res
                 loaded := true
                 lockHeld := false
                 pc := Function.update s.pc i TaskPc.done }

/-- Reachability under interleaved task steps. -/
def EnsureReach (n : Nat) (res : Option IsinIndex) :
    FeedState n → FeedState n → Prop :=
  Relation.ReflTransGen (EnsureStep n res)

/-- A task is inside the lock-protected region (it holds the lock). -/
def inCritical (p : TaskPc) : Prop :=
  p = TaskPc.critical ∨ p = TaskPc.downloading

/-- Inductive invariant of the `_ensure_index_loaded` transition system:
the lock is held exactly when one task is in the protected region and that
task is unique; once loaded, exactly one download ran, the index holds the
download result, and nobody is still downloading; before loading, the
index is unset, nobody has returned, and the download counter matches
whether the single protected task has started downloading. -/
structure EnsureInv (n : Nat) (res : Option IsinIndex) (s : FeedState n) :
    Prop where
  lock_iff : s.lockHeld = true ↔ ∃ i, inCritical (s.pc i)
  crit_unique : ∀ i j, inCritical (s.pc i) → inCritical (s.pc j) → i = j
  loaded_downloads : s.loaded = true → s.downloads = 1
  loaded_index : s.loaded = true → s.isinIndex = res
  loaded_no_dl : s.loaded = true → ∀ i, s.pc i ≠ TaskPc.downloading
  unloaded_dl : s.loaded = false →
    ∀ i, s.pc i = TaskPc.downloading → s.downloads = 1
  unloaded_nodl : s.loaded = false →
    (∀ i, s.pc i ≠ TaskPc.downloading) → s.downloads = 0
  unloaded_nodone : s.loaded = false → ∀ i, s.pc i ≠ TaskPc.done
  unloaded_index : s.loaded = false → s.isinIndex = none

/-! ## Concrete fixtures used by witnesses -/

/-- The spec's example pre-loaded index `{"US0378331005": "LEI1"}`. -/
def appleIndex : IsinIndex :=
  fun k => if k = "US0378331005" then some "LEI1" else none

/-- An empty (loaded but contentless) ISIN index. -/
def emptyIndex : IsinIndex := fun _ => none

/-- An empty name cache. -/
def emptyNameCache : NameCache := fun _ => none

/-- A name cache pre-seeded with the no-match sentinel for
`"Unknown Corp"`. -/
def sentinelCacheUnknown : NameCache :=
  fun k => if k = "Unknown Corp" then some NO_MATCH_SENTINEL else none

/-- A search tier that returns no candidates for any name. -/
def emptySearchTier : String → List (String × String) := fun _ => []

/-- Download result for the concrete two-task run below. -/
def c1Res : Option IsinIndex := some appleIndex

/-- Concrete two-task interleaving, state 0: cold feed. -/
def c1S0 : FeedState 2 := initState 2

/-- State 1: task 0 sees the unset flag and goes to wait on the lock. -/
def c1S1 : FeedState 2 :=
  { c1S0 with pc := Function.update c1S0.pc 0 TaskPc.waiting }

/-- State 2: task 1 sees the unset flag and goes to wait on the lock. -/
def c1S2 : FeedState 2 :=
  { c1S1 with pc := Function.update c1S1.pc 1 TaskPc.waiting }

/-- State 3: task 0 acquires the lock. -/
def c1S3 : FeedState 2 :=
  { c1S2 with lockHeld := true
              pc := Function.update c1S2.pc 0 TaskPc.critical }

/-- State 4: task 0 re-checks the flag and starts the download. -/
def c1S4 : FeedState 2 :=
  { c1S3 with downloads := c1S3.downloads + 1
              pc := Function.update c1S3.pc 0 TaskPc.downloading }

/-- State 5: the download completes; task 0 stores the index, sets the
flag, and releases the lock. -/
def c1S5 : FeedState 2 :=
  { c1S4 with isinIndex := c1Res
              loaded := true
              lockHeld := false
              pc := Function.update c1S4.pc 0 TaskPc.done }

/-- State 6: task 1 acquires the lock. -/
def c1S6 : FeedState 2 :=
  { c1S5 with lockHeld := true
              pc := Function.update c1S5.pc 1 TaskPc.critical }

/-- State 7: task 1 re-checks the flag, sees it set, and returns without
downloading. -/
def c1S7 : FeedState 2 :=
  { c1S6 with lockHeld := false
              pc := Function.update c1S6.pc 1 TaskPc.done }

/-! ## Sanity checks against the repository's unit tests -/

example : strip_corporate_suffix "AIB GROUP PLC" = "AIB GROUP" := by decide
example : strip_corporate_suffix "Apple Inc." = "Apple" := by decide
example : strip_corporate_suffix "Alphabet, Inc." = "Alphabet" := by decide
example : strip_corporate_suffix "AIB Group (UK) P.L.C." = "AIB Group (UK)" := by decide
example :
    strip_corporate_suffix "ALLIED IRISH BANKS PUBLIC LIMITED COMPANY"
      = "ALLIED IRISH BANKS" := by decide
example : strip_corporate_suffix "Shell" = "Shell" := by decide
example : strip_corporate_suffix "PLC" = "PLC" := by decide

/-! ## Claim C6 — `strip_corporate_suffix` on degenerate names

The docstring of `strip_corporate_suffix` promises "the original
name if no suffix is found or stripping would leave it empty", and the
spec repeats that promise, but the only guards in the code are the word
counts (`len(words) <= n`, `len(words) <= 1`).  When the words left after
removing the suffix consist solely of the punctuation that the final
`rstrip(" ,.")` removes, the function returns the empty string instead of
the original name: `". Inc"` splits into `[".", "Inc"]`, the single-word
rule strips `"Inc"`, and `".".rstrip(" ,.")` is empty. -/

/-- Claim C6 (code bug): on the input `". Inc"` the code returns the empty
string, not the original name, even though stripping the matched suffix
yields an empty string. -/
theorem strip_corporate_suffix_dot_inc_empty :
    strip_corporate_suffix ". Inc" = "" ∧ ". Inc" ≠ "" ∧
      strip_corporate_suffix ", Ltd" = "" := by
  refine ⟨by decide, by decide, by decide⟩

/-! ## Claim C5 — `_parse_csv` builds a normalised last-row-wins index -/

/-- The fold of `_parse_csv` looks up as: the last valid row whose
normalised ISIN equals the key wins, otherwise the accumulator is
consulted. -/
theorem parse_csv_foldl (rows : List CsvRow) (index : String → Option String)
    (k : String) :
    rows.foldl parseStep index k =
      match (rows.filterMap parseRow).reverse.find? (fun p => decide (p.1 = k)) with
      | some p => some p.2
      | none => index k := by
  induction rows generalizing index with
  | nil => simp
  | cons row rest ih =>
    rw [List.foldl_cons, ih (parseStep index row), List.filterMap_cons]
    cases hrow : parseRow row with
    | none => simp [parseStep, hrow]
    | some p =>
      simp only [List.reverse_cons, List.find?_append]
      cases hfind :
          (rest.filterMap parseRow).reverse.find? (fun q => decide (q.1 = k)) with
      | some q => simp
      | none =>
        by_cases hk : p.1 = k
        · simp [parseStep, hrow, List.find?, hk]
        · have hk2 : ¬ k = p.1 := fun h => hk h.symm
          simp [parseStep, hrow, List.find?, hk, hk2]

/-- Claim C5: the index built by `_parse_csv` trims and upper-cases both
fields, skips every row where either normalised field is empty, and maps
each ISIN to the LEI of the last valid row carrying it. -/
theorem parse_csv_matches_spec (rows : List CsvRow) (k : String) :
    parse_csv rows k = csvIndexSpec rows k := by
  have hrow : parseRow = (fun row : CsvRow =>
      let isin := pyUpper (pyTrim row.isin)
      let lei := pyUpper (pyTrim row.lei)
      if isin = "" ∨ lei = "" then none else some (isin, lei)) := by
    funext row
    by_cases h1 : pyUpper (pyTrim row.isin) = "" <;>
      by_cases h2 : pyUpper (pyTrim row.lei) = "" <;>
        simp [parseRow, truthyOrNone, normCsvField, h1, h2]
  rw [parse_csv, parse_csv_foldl, csvIndexSpec, hrow]
  cases hfind :
      ((rows.filterMap fun row : CsvRow =>
        let isin := pyUpper (pyTrim row.isin)
        let lei := pyUpper (pyTrim row.lei)
        if isin = "" ∨ lei = "" then none
        else some (isin, lei)).reverse.find? fun p => decide (p.1 = k)) with
  | none => simp [hfind]
  | some p => simp [hfind]

/-! ## Claim C3 — `rank_candidates` machinery -/

/-- Membership through the stable insertion. -/
theorem mem_insertByScoreDesc (z x : ℚ × String × String)
    (l : List (ℚ × String × String)) :
    z ∈ insertByScoreDesc x l ↔ z = x ∨ z ∈ l := by
  induction l with
  | nil => simp [insertByScoreDesc]
  | cons y ys ih =>
    by_cases h : y.1 ≤ x.1
    · simp [insertByScoreDesc, h, List.mem_cons]
    · simp only [insertByScoreDesc, if_neg h, List.mem_cons, ih]
      tauto

/-- Stable insertion preserves the descending-score ordering. -/
theorem pairwise_insertByScoreDesc (x : ℚ × String × String)
    (l : List (ℚ × String × String))
    (h : List.Pairwise (fun a b => b.1 ≤ a.1) l) :
    List.Pairwise (fun a b => b.1 ≤ a.1) (insertByScoreDesc x l) := by
  induction l with
  | nil => simp [insertByScoreDesc]
  | cons y ys ih =>
    rcases List.pairwise_cons.mp h with ⟨hy, hys⟩
    by_cases hle : y.1 ≤ x.1
    · simp only [insertByScoreDesc, if_pos hle]
      refine List.pairwise_cons.mpr ⟨?_, h⟩
      intro z hz
      rcases List.mem_cons.mp hz with rfl | hz2
      · exact hle
      · exact le_trans (hy z hz2) hle
    · simp only [insertByScoreDesc, if_neg hle]
      refine List.pairwise_cons.mpr ⟨?_, ih hys⟩
      intro z hz
      rcases (mem_insertByScoreDesc z x ys).mp hz with rfl | hz2
      · exact le_of_lt (lt_of_not_le hle)
      · exact hy z hz2

/-- The sort produces a list descending in the score component. -/
theorem pairwise_sortByScoreDesc (l : List (ℚ × String × String)) :
    List.Pairwise (fun a b => b.1 ≤ a.1) (sortByScoreDesc l) := by
  induction l with
  | nil => simp [sortByScoreDesc]
  | cons x xs ih => exact pairwise_insertByScoreDesc x _ ih

/-- The sort has the same members as its input. -/
theorem mem_sortByScoreDesc (z : ℚ × String × String)
    (l : List (ℚ × String × String)) :
    z ∈ sortByScoreDesc l ↔ z ∈ l := by
  induction l with
  | nil => simp [sortByScoreDesc]
  | cons x xs ih =>
    simp [sortByScoreDesc, mem_insertByScoreDesc, ih, List.mem_cons]

/-- Inserting an element whose score equals `q` puts it in front of every
element of the same score: its insertion point only skips strictly larger
scores. -/
theorem filter_insertByScoreDesc_pos (x : ℚ × String × String)
    (l : List (ℚ × String × String)) (q : ℚ) (hx : x.1 = q) :
    (insertByScoreDesc x l).filter (fun t => decide (t.1 = q)) =
      x :: l.filter (fun t => decide (t.1 = q)) := by
  induction l with
  | nil => simp [insertByScoreDesc, List.filter_cons, hx]
  | cons y ys ih =>
    by_cases hle : y.1 ≤ x.1
    · simp only [insertByScoreDesc, if_pos hle]
      simp [List.filter_cons, hx]
    · have hy : ¬ (y.1 = q) := by
        rw [← hx]
        intro h
        exact hle (le_of_eq h)
      simp only [insertByScoreDesc, if_neg hle]
      simp [List.filter_cons, hy, ih]

/-- Inserting an element of a different score leaves the score-`q` slice
unchanged. -/
theorem filter_insertByScoreDesc_neg (x : ℚ × String × String)
    (l : List (ℚ × String × String)) (q : ℚ) (hx : ¬ x.1 = q) :
    (insertByScoreDesc x l).filter (fun t => decide (t.1 = q)) =
      l.filter (fun t => decide (t.1 = q)) := by
  induction l with
  | nil => simp [insertByScoreDesc, List.filter_cons, hx]
  | cons y ys ih =>
    by_cases hle : y.1 ≤ x.1
    · simp only [insertByScoreDesc, if_pos hle]
      simp [List.filter_cons, hx]
    · simp only [insertByScoreDesc, if_neg hle]
      simp only [List.filter_cons, ih]

/-- Stability of the sort: each equal-score slice keeps its input order. -/
theorem filter_sortByScoreDesc (l : List (ℚ × String × String)) (q : ℚ) :
    (sortByScoreDesc l).filter (fun t => decide (t.1 = q)) =
      l.filter (fun t => decide (t.1 = q)) := by
  induction l with
  | nil => rfl
  | cons x xs ih =>
    by_cases hx : x.1 = q
    · rw [sortByScoreDesc, filter_insertByScoreDesc_pos x _ q hx, ih]
      simp [List.filter_cons, hx]
    · rw [sortByScoreDesc, filter_insertByScoreDesc_neg x _ q hx, ih]
      simp [List.filter_cons, hx]

/-- The constant-70 score function satisfies the rapidfuzz cutoff
contract. -/
theorem score70_contract : scoreCutoffContract score70 := by
  intro a b
  exact Or.inr ⟨le_refl _, by norm_num [score70]⟩

/-- Claim C3 (amended): the output of `rank_candidates` is sorted by
descending similarity score, every retained candidate scores at least the
cutoff 70 (a score of exactly 70 is retained), and score ties keep the
original input order (each equal-score slice of the output equals the
corresponding slice of the input). -/
theorem rank_candidates_sorted_cutoff_stable (score : String → String → ℚ)
    (equity_name : String) (candidates : List (String × String))
    (hcontract : scoreCutoffContract score) :
    List.Pairwise (fun a b => score equity_name b.1 ≤ score equity_name a.1)
        (rank_candidates score equity_name candidates)
    ∧ (∀ c ∈ rank_candidates score equity_name candidates,
        70 ≤ score equity_name c.1 ∧ score equity_name c.1 ≤ 100)
    ∧ (∀ q : ℚ, 0 < q →
        (rank_candidates score equity_name candidates).filter
            (fun c => decide (score equity_name c.1 = q))
          = candidates.filter (fun c => decide (score equity_name c.1 = q))) := by
  cases candidates with
  | nil =>
    refine ⟨by simp [rank_candidates], by simp [rank_candidates], ?_⟩
    intro q hq
    simp [rank_candidates]
  | cons c0 cs =>
    have hscored : ∀ t ∈ sortByScoreDesc
        ((c0 :: cs).map (scoreTriple score equity_name)),
        t.1 = score equity_name t.2.1 := by
      intro t ht
      have ht2 := (mem_sortByScoreDesc t _).mp ht
      rcases List.mem_map.mp ht2 with ⟨c, _, rfl⟩
      rfl
    have hrank : rank_candidates score equity_name (c0 :: cs) =
        ((sortByScoreDesc ((c0 :: cs).map (scoreTriple score equity_name))).filter
          (fun t => decide (0 < t.1))).map (fun t => (t.2.1, t.2.2)) := rfl
    refine ⟨?_, ?_, ?_⟩
    · rw [hrank]
      refine List.pairwise_map.mpr ?_
      have hsorted :=
        (pairwise_sortByScoreDesc
          ((c0 :: cs).map (scoreTriple score equity_name))).filter
          (fun t => decide (0 < t.1))
      refine hsorted.imp_of_mem ?_
      intro a b ha hb hab
      have ha2 := hscored a (List.mem_filter.mp ha).1
      have hb2 := hscored b (List.mem_filter.mp hb).1
      show score equity_name b.2.1 ≤ score equity_name a.2.1
      rw [← ha2, ← hb2]
      exact hab
    · intro c hc
      rw [hrank] at hc
      rcases List.mem_map.mp hc with ⟨t, ht, rfl⟩
      have htmem := (List.mem_filter.mp ht).1
      have htpos : (0 : ℚ) < t.1 := of_decide_eq_true (List.mem_filter.mp ht).2
      have hts := hscored t htmem
      have hpos2 : (0 : ℚ) < score equity_name t.2.1 := hts ▸ htpos
      rcases hcontract equity_name t.2.1 with h0 | hb
      · rw [h0] at hpos2
        exact absurd hpos2 (lt_irrefl 0)
      · exact hb
    · intro q hq
      rw [hrank, List.filter_map, List.filter_filter]
      have hcong : ∀ t ∈ sortByScoreDesc
          ((c0 :: cs).map (scoreTriple score equity_name)),
          (((fun c : String × String => decide (score equity_name c.1 = q)) ∘
              (fun t : ℚ × String × String => (t.2.1, t.2.2))) t
            && decide (0 < t.1)) = decide (t.1 = q) := by
        intro t ht
        have hts := hscored t ht
        simp only [Function.comp_apply]
        by_cases htq : t.1 = q
        · have hsq : score equity_name t.2.1 = q := by rw [← hts]; exact htq
          have h0t : (0 : ℚ) < t.1 := htq ▸ hq
          simp [hsq, htq, h0t, hq]
        · have hsq : ¬ score equity_name t.2.1 = q := by rw [← hts]; exact htq
          simp [hsq, htq]
      rw [List.filter_congr hcong, filter_sortByScoreDesc, List.filter_map,
        List.map_map]
      have h2 : ((fun t : ℚ × String × String => (t.2.1, t.2.2)) ∘
          scoreTriple score equity_name) = id := by
        funext c
        simp [scoreTriple]
      rw [h2, List.map_id]
      rfl

/-- Claim C3 counterexample: under the rapidfuzz cutoff contract a
similarity of exactly 70 — at the cutoff, hence "at or below" it — is
retained in the output of `rank_candidates`, so the output is not free of
scores at or below 70. -/
theorem rank_candidates_retains_cutoff_score :
    scoreCutoffContract score70
    ∧ rank_candidates score70 "ACME" [("ACME HOLDINGS", "LEI0")]
        = [("ACME HOLDINGS", "LEI0")]
    ∧ score70 "ACME" "ACME HOLDINGS" ≤ 70 := by
  refine ⟨score70_contract, by decide, le_refl _⟩

/-- Witness for claim C3 at a concrete score function and candidate list. -/
theorem rank_candidates_sorted_cutoff_stable_witness :
    List.Pairwise
        (fun a b : String × String => score70 "A" b.1 ≤ score70 "A" a.1)
        (rank_candidates score70 "A" [("B", "L1"), ("C", "L2")])
    ∧ (rank_candidates score70 "A" [("B", "L1"), ("C", "L2")]).filter
          (fun c => decide (score70 "A" c.1 = 70))
        = [("B", "L1"), ("C", "L2")].filter
          (fun c => decide (score70 "A" c.1 = 70)) := by
  have h := rank_candidates_sorted_cutoff_stable score70 "A"
    [("B", "L1"), ("C", "L2")] score70_contract
  exact ⟨h.1, h.2.2 70 (by norm_num)⟩

/-! ## Claim C4 — `select_best_parent` machinery -/

/-- The running maximum of a fold never drops below its seed. -/
theorem le_foldl_max (f : String × String → ℚ) (l : List (String × String)) :
    ∀ a : ℚ, a ≤ l.foldl (fun acc p => max acc (f p)) a := by
  induction l with
  | nil => intro a; exact le_refl a
  | cons x xs ih =>
    intro a
    rw [List.foldl_cons]
    exact le_trans (le_max_left a (f x)) (ih (max a (f x)))

/-- The running maximum of a fold is its seed or is attained by a list
element. -/
theorem foldl_max_attained (f : String × String → ℚ)
    (l : List (String × String)) :
    ∀ a : ℚ, l.foldl (fun acc p => max acc (f p)) a = a ∨
      ∃ p ∈ l, l.foldl (fun acc p => max acc (f p)) a = f p := by
  induction l with
  | nil => intro a; exact Or.inl rfl
  | cons x xs ih =>
    intro a
    rw [List.foldl_cons]
    rcases ih (max a (f x)) with h | ⟨p, hp, h⟩
    · rcases le_total (f x) a with hle | hle
      · exact Or.inl (by rw [h, max_eq_left hle])
      · exact Or.inr ⟨x, List.mem_cons_self _ _, by rw [h, max_eq_right hle]⟩
    · exact Or.inr ⟨p, List.mem_cons_of_mem _ hp, h⟩

/-- The strict-improvement loop of `select_best_parent` computes the LEI
of the first element attaining the running maximum, or keeps its seed when
nothing improves on it. -/
theorem bestParentLoop_eq (score : String → String → ℚ)
    (equity_name : String) (l : List (String × String)) :
    ∀ (s : ℚ) (b : String),
      bestParentLoop score equity_name s b l =
        (if l.foldl (fun acc p => max acc (score equity_name p.1)) s ≤ s then b
         else
           ((l.find? (fun p => decide (score equity_name p.1 =
               l.foldl (fun acc p => max acc (score equity_name p.1)) s))).map
             Prod.snd).getD b) := by
  induction l with
  | nil =>
    intro s b
    simp [bestParentLoop]
  | cons x xs ih =>
    intro s b
    cases x with
    | mk pn pl =>
      rw [List.foldl_cons]
      by_cases hlt : s < score equity_name pn
      · have hmax : max s (score equity_name pn) = score equity_name pn :=
          max_eq_right (le_of_lt hlt)
        simp only [bestParentLoop, if_pos hlt, hmax]
        rw [ih (score equity_name pn) pl]
        have hge : score equity_name pn ≤
            xs.foldl (fun acc p => max acc (score equity_name p.1))
              (score equity_name pn) :=
          le_foldl_max _ xs _
        have hMs : ¬ xs.foldl (fun acc p => max acc (score equity_name p.1))
            (score equity_name pn) ≤ s :=
          fun h => absurd (le_trans hge h) (not_le.mpr hlt)
        rw [if_neg hMs]
        by_cases hM1 : xs.foldl (fun acc p => max acc (score equity_name p.1))
            (score equity_name pn) ≤ score equity_name pn
        · have hMeq : xs.foldl (fun acc p => max acc (score equity_name p.1))
              (score equity_name pn) = score equity_name pn :=
            le_antisymm hM1 hge
          rw [if_pos hM1]
          simp [List.find?_cons, hMeq]
        · rw [if_neg hM1]
          have hne : decide (score equity_name pn =
              xs.foldl (fun acc p => max acc (score equity_name p.1))
                (score equity_name pn)) = false :=
            decide_eq_false (fun h => hM1 (le_of_eq h.symm))
          rcases foldl_max_attained (fun p => score equity_name p.1) xs
              (score equity_name pn) with h | ⟨w, hw, hMw⟩
          · exact absurd (le_of_eq h) hM1
          · have hsome : (xs.find? (fun p => decide (score equity_name p.1 =
                xs.foldl (fun acc p => max acc (score equity_name p.1))
                  (score equity_name pn)))).isSome = true := by
              refine List.find?_isSome.mpr ⟨w, hw, ?_⟩
              exact decide_eq_true hMw.symm
            obtain ⟨y, hy⟩ := Option.isSome_iff_exists.mp hsome
            rw [List.find?_cons, hne]
            simp [hy]
      · have hle : score equity_name pn ≤ s := not_lt.mp hlt
        have hmax : max s (score equity_name pn) = s := max_eq_left hle
        simp only [bestParentLoop, if_neg hlt, hmax]
        rw [ih s b]
        by_cases hM2 : xs.foldl (fun acc p => max acc (score equity_name p.1)) s ≤ s
        · rw [if_pos hM2, if_pos hM2]
        · rw [if_neg hM2, if_neg hM2]
          have hne : decide (score equity_name pn =
              xs.foldl (fun acc p => max acc (score equity_name p.1)) s) = false := by
            refine decide_eq_false (fun h => hM2 ?_)
            rw [← h]
            exact hle
          rw [List.find?_cons, hne]

/-- Claim C4: `select_best_parent` returns `none` on an empty parent list
and otherwise the LEI of the first parent attaining the highest similarity
score against the equity name — always one of the supplied parents'
identifiers, never any other value. -/
theorem select_best_parent_eq_spec (score : String → String → ℚ)
    (equity_name : String) (parents : List (String × String)) :
    select_best_parent score equity_name parents =
      specBestParent score equity_name parents := by
  cases parents with
  | nil => rfl
  | cons p rest =>
    cases p with
    | mk pn pl =>
      show some (bestParentLoop score equity_name
          (score equity_name pn) pl rest) = _
      rw [bestParentLoop_eq score equity_name rest (score equity_name pn) pl]
      have hge : score equity_name pn ≤
          rest.foldl (fun acc q => max acc (score equity_name q.1))
            (score equity_name pn) :=
        le_foldl_max _ rest _
      by_cases hM : rest.foldl (fun acc q => max acc (score equity_name q.1))
          (score equity_name pn) ≤ score equity_name pn
      · have hMeq : rest.foldl (fun acc q => max acc (score equity_name q.1))
            (score equity_name pn) = score equity_name pn :=
          le_antisymm hM hge
        rw [if_pos hM]
        simp [specBestParent, List.find?_cons, hMeq]
      · rw [if_neg hM]
        have hne : decide (score equity_name pn =
            rest.foldl (fun acc q => max acc (score equity_name q.1))
              (score equity_name pn)) = false :=
          decide_eq_false (fun h => hM (le_of_eq h.symm))
        rcases foldl_max_attained (fun q => score equity_name q.1) rest
            (score equity_name pn) with h | ⟨w, hw, hMw⟩
        · exact absurd (le_of_eq h) hM
        · have hsome : (rest.find? (fun q => decide (score equity_name q.1 =
              rest.foldl (fun acc q => max acc (score equity_name q.1))
                (score equity_name pn)))).isSome = true := by
            refine List.find?_isSome.mpr ⟨w, hw, ?_⟩
            exact decide_eq_true hMw.symm
          obtain ⟨y, hy⟩ := Option.isSome_iff_exists.mp hsome
          simp [specBestParent, List.find?_cons, hne, hy]

/-! ## Claim C7 — `backoff_delays` -/

/-- The loop yields one value per remaining attempt. -/
theorem backoffGo_length (cap jitter : ℚ) (rand : Nat → ℚ) :
    ∀ (n : Nat) (delay : ℚ) (i : Nat),
      (backoffGo cap jitter rand delay i n).length = n := by
  intro n
  induction n with
  | zero => intro delay i; rfl
  | succ n ih => intro delay i; simp [backoffGo, ih]

/-- Every yielded value is clamped into `[0, cap]` (for a non-negative
cap), whatever the jitter draws are. -/
theorem backoffGo_mem_bounds (cap jitter : ℚ) (rand : Nat → ℚ)
    (hcap : 0 ≤ cap) :
    ∀ (n : Nat) (delay : ℚ) (i : Nat),
      ∀ d ∈ backoffGo cap jitter rand delay i n, 0 ≤ d ∧ d ≤ cap := by
  intro n
  induction n with
  | zero => intro delay i d hd; simp [backoffGo] at hd
  | succ n ih =>
    intro delay i d hd
    simp only [backoffGo, List.mem_cons] at hd
    rcases hd with rfl | hd
    · exact ⟨le_max_left _ _, max_le hcap (min_le_right _ _)⟩
    · exact ih _ _ d hd

/-- Clamped doubling commutes with one more doubling step. -/
theorem min_double_step (cap delay : ℚ) (hcap : 0 ≤ cap) (h0 : 0 ≤ delay)
    (j : Nat) :
    min ((2 : ℚ) ^ j * min (delay * 2) cap) cap = min (2 ^ (j + 1) * delay) cap := by
  have h2j : (1 : ℚ) ≤ 2 ^ j := one_le_pow₀ (by norm_num)
  rcases le_total (delay * 2) cap with h | h
  · rw [min_eq_left h, pow_succ]
    ring_nf
  · rw [min_eq_right h]
    have h1 : cap ≤ 2 ^ j * cap := le_mul_of_one_le_left hcap h2j
    have h2 : cap ≤ 2 ^ (j + 1) * delay := by
      have h3 : delay * 2 ≤ 2 ^ j * (delay * 2) :=
        le_mul_of_one_le_left (by linarith) h2j
      calc cap ≤ delay * 2 := h
        _ ≤ 2 ^ j * (delay * 2) := h3
        _ = 2 ^ (j + 1) * delay := by rw [pow_succ]; ring
    rw [min_eq_right h1, min_eq_right h2]

/-- With jitter zero the loop yields the clamped doubling sequence
`min (2 ^ j · delay) cap`. -/
theorem backoffGo_jitter_zero (cap : ℚ) (rand : Nat → ℚ) (hcap : 0 ≤ cap) :
    ∀ (n : Nat) (delay : ℚ) (i : Nat), 0 ≤ delay → delay ≤ cap →
      ∀ j < n, (backoffGo cap 0 rand delay i n).get? j
        = some (min (2 ^ j * delay) cap) := by
  intro n
  induction n with
  | zero => intro delay i h0 hc j hj; exact absurd hj (Nat.not_lt_zero j)
  | succ n ih =>
    intro delay i h0 hc j hj
    have hval : max 0 (min (delay + delay * 0 * (2 * rand i - 1)) cap) = delay := by
      rw [mul_zero, zero_mul, add_zero, min_eq_left hc, max_eq_right h0]
    cases j with
    | zero =>
      simp only [backoffGo, hval, List.get?]
      rw [pow_zero, one_mul, min_eq_left hc]
    | succ j =>
      have hd0 : 0 ≤ min (delay * 2) cap := le_min (by linarith) hcap
      have hdc : min (delay * 2) cap ≤ cap := min_le_right _ _
      have hrec := ih (min (delay * 2) cap) (i + 1) hd0 hdc j
        (Nat.lt_of_succ_lt_succ hj)
      simp only [backoffGo, List.get?]
      rw [hrec, min_double_step cap delay hcap h0 j]

/-- Claim C7: `backoff_delays` yields exactly `attempts` values, each in
`[0, cap]`; with jitter zero the sequence is the doubling sequence clamped
at the cap, so the second value is exactly double the first whenever
doubling the base does not exceed the cap. -/
theorem backoff_delays_bounds_doubling (base cap jitter : ℚ) (k : Nat)
    (rand : Nat → ℚ) (hcap : 0 ≤ cap) :
    (backoff_delays base cap jitter k rand).length = k
    ∧ (∀ d ∈ backoff_delays base cap jitter k rand, 0 ≤ d ∧ d ≤ cap)
    ∧ (jitter = 0 → 0 ≤ base → base ≤ cap →
        ∀ j < k, (backoff_delays base cap jitter k rand).get? j
          = some (min (2 ^ j * base) cap))
    ∧ (jitter = 0 → 0 ≤ base → 2 * base ≤ cap → 2 ≤ k →
        (backoff_delays base cap jitter k rand).get? 0 = some base
        ∧ (backoff_delays base cap jitter k rand).get? 1 = some (2 * base)) := by
  refine ⟨backoffGo_length cap jitter rand k base 0,
    fun d hd => backoffGo_mem_bounds cap jitter rand hcap k base 0 d hd,
    ?_, ?_⟩
  · intro hj h0 hc j hjk
    subst hj
    exact backoffGo_jitter_zero cap rand hcap k base 0 h0 hc j hjk
  · intro hj h0 h2c hk
    subst hj
    have hbc : base ≤ cap := by linarith
    have g0 := backoffGo_jitter_zero cap rand hcap k base 0 h0 hbc 0 (by omega)
    have g1 := backoffGo_jitter_zero cap rand hcap k base 0 h0 hbc 1 (by omega)
    constructor
    · rw [backoff_delays, g0, pow_zero, one_mul, min_eq_left hbc]
    · rw [backoff_delays, g1, pow_one, min_eq_left h2c]

/-- Witness for claim C7 at the source defaults `base = 1`, `cap = 64`,
jitter disabled, five attempts. -/
theorem backoff_delays_witness :
    (backoff_delays 1 64 0 5 (fun _ => 1)).length = 5
    ∧ (backoff_delays 1 64 0 5 (fun _ => 1)).get? 0 = some 1
    ∧ (backoff_delays 1 64 0 5 (fun _ => 1)).get? 1 = some 2 := by
  have h := backoff_delays_bounds_doubling 1 64 0 5 (fun _ => 1) (by norm_num)
  have h2 := h.2.2.2 rfl (by norm_num) (by norm_num) (by norm_num)
  exact ⟨h.1, by rw [h2.1], by rw [h2.2]; norm_num⟩

/-! ## Claim C9 — an ISIN-index hit is answered without any other tier -/

/-- Claim C9: when the supplied ISIN is a key of the loaded index,
`fetch_equity` returns the mapped LEI together with the input name, symbol
and ISIN, the name cache is untouched and not even consulted, and the live
API tier does not run. -/
theorem fetch_equity_isin_hit (idx : IsinIndex) (cache : NameCache)
    (score : String → String → ℚ)
    (candidatesOf parentsOf : String → List (String × String))
    (symbol name isin lei : String) (hhit : idx isin = some lei) :
    fetch_equity (some idx) cache score candidatesOf parentsOf
        symbol name (some isin)
      = (Except.ok ⟨name, symbol, some isin, lei⟩, cache, false, false) := by
  simp [fetch_equity, lookup_by_isin, hhit]

/-- Witness for claim C9 at the spec's example: index
`{"US0378331005": "LEI1"}`, query `AAPL / Apple Inc. / US0378331005`. -/
theorem fetch_equity_isin_hit_witness :
    appleIndex "US0378331005" = some "LEI1"
    ∧ fetch_equity (some appleIndex) emptyNameCache score70
        emptySearchTier emptySearchTier "AAPL" "Apple Inc."
        (some "US0378331005")
      = (Except.ok ⟨"Apple Inc.", "AAPL", some "US0378331005", "LEI1"⟩,
         emptyNameCache, false, false) := by
  refine ⟨by decide, ?_⟩
  exact fetch_equity_isin_hit appleIndex emptyNameCache score70
    emptySearchTier emptySearchTier "AAPL" "Apple Inc." "US0378331005" "LEI1"
    (by decide)

/-! ## Claim C2 — the stored sentinel raises without any network call,
and is a state distinct from an absent cache entry -/

/-- Shared step: a stored sentinel plus an ISIN miss makes `fetch_equity`
raise the lookup failure with an unchanged cache and no live API run. -/
theorem sentinel_fetch_eq (isin_index : Option IsinIndex)
    (cache : NameCache) (score : String → String → ℚ)
    (candidatesOf parentsOf : String → List (String × String))
    (symbol name : String) (isin : Option String)
    (hsent : cache name = some NO_MATCH_SENTINEL)
    (hmiss : lookup_by_isin isin_index isin = none) :
    fetch_equity isin_index cache score candidatesOf parentsOf symbol name isin
      = (Except.error (noLeiMessage name isin), cache, true, false) := by
  simp [fetch_equity, hmiss, lookup_by_name, hsent, resolve_cached_value,
    NO_MATCH_SENTINEL]

/-- Claim C2: with the no-match sentinel stored for the name and no ISIN
hit, `fetch_equity` raises the lookup failure, leaves the cache unchanged,
and the live API tier does not run; moreover the live tier runs exactly
when the cache entry is absent, so the sentinel and the never-queried
state behave differently. -/
theorem fetch_equity_sentinel_raises_without_api (isin_index : Option IsinIndex)
    (cache : NameCache) (score : String → String → ℚ)
    (candidatesOf parentsOf : String → List (String × String))
    (symbol name : String) (isin : Option String)
    (hsent : cache name = some NO_MATCH_SENTINEL)
    (hmiss : lookup_by_isin isin_index isin = none) :
    fetch_equity isin_index cache score candidatesOf parentsOf symbol name isin
      = (Except.error (noLeiMessage name isin), cache, true, false)
    ∧ ∀ cache2 : NameCache,
        (lookup_by_name score candidatesOf parentsOf cache2 name).2.2
          = (cache2 name).isNone := by
  constructor
  · exact sentinel_fetch_eq isin_index cache score candidatesOf parentsOf
      symbol name isin hsent hmiss
  · intro cache2
    cases hc : cache2 name with
    | none => simp [lookup_by_name, hc]
    | some v => simp [lookup_by_name, hc]

/-- Witness for claim C2 at the spec's example: empty index, sentinel
pre-seeded for `"Unknown Corp"`. -/
theorem fetch_equity_sentinel_raises_without_api_witness :
    sentinelCacheUnknown "Unknown Corp" = some NO_MATCH_SENTINEL
    ∧ lookup_by_isin (some emptyIndex) none = none
    ∧ fetch_equity (some emptyIndex) sentinelCacheUnknown score70
        emptySearchTier emptySearchTier "UNK" "Unknown Corp" none
      = (Except.error (noLeiMessage "Unknown Corp" none),
         sentinelCacheUnknown, true, false) := by
  refine ⟨by decide, rfl, ?_⟩
  exact (fetch_equity_sentinel_raises_without_api (some emptyIndex)
    sentinelCacheUnknown score70 emptySearchTier emptySearchTier
    "UNK" "Unknown Corp" none (by decide) rfl).1

/-! ## Claim C8 — a failed or empty index build is never fatal -/

/-- Claim C8: a failed download is caught and becomes an absent index —
`download_and_cache` and `_get_index` are total and return `none`, never
propagating the error — every ISIN lookup against the resulting state
misses, and resolution proceeds exactly as the name-based path does; an
index built empty behaves the same way. -/
theorem index_failure_never_fatal (e : String) (cache : NameCache)
    (score : String → String → ℚ)
    (candidatesOf parentsOf : String → List (String × String))
    (symbol name : String) (isin : Option String) :
    download_and_cache (Except.error e) = none
    ∧ get_index none (Except.error e) = none
    ∧ (∀ isin2 : Option String,
        lookup_by_isin (get_index none (Except.error e)) isin2 = none)
    ∧ fetch_equity (get_index none (Except.error e)) cache score
          candidatesOf parentsOf symbol name isin
        = fetch_equity none cache score candidatesOf parentsOf symbol name isin
    ∧ fetch_equity (some emptyIndex) cache score candidatesOf parentsOf
          symbol name isin
        = fetch_equity none cache score candidatesOf parentsOf symbol name isin
    ∧ fetch_equity none cache score candidatesOf parentsOf symbol name isin
        = (match lookup_by_name score candidatesOf parentsOf cache name with
           | (some lei, cache2, apiRan) =>
             (Except.ok ⟨name, symbol, isin, lei⟩, cache2, true, apiRan)
           | (none, cache2, apiRan) =>
             (Except.error (noLeiMessage name isin), cache2, true, apiRan)) := by
  refine ⟨rfl, rfl, ?_, ?_, ?_, ?_⟩
  · intro isin2
    cases isin2 <;> rfl
  · rfl
  · cases isin <;> rfl
  · have hmiss : lookup_by_isin none isin = none := by cases isin <;> rfl
    rcases hlb : lookup_by_name score candidatesOf parentsOf cache name
      with ⟨r, cache2, apiRan⟩
    cases r <;> simp [fetch_equity, hmiss, hlb]

/-! ## Claim C10 — the live tier always writes a cache entry, so a
degraded (failed) search is remembered as the no-match sentinel -/

/-- Claim C10: when a resolution reaches the live API tier (no ISIN hit,
no cache entry), a cache entry for the name is always written — the
resolved LEI, or the sentinel when resolution produced nothing.  In
particular when the search degraded to an empty candidate list because of
a transport error, HTTP failure or malformed payload, the sentinel is
stored, and a later resolution of the same name raises the lookup failure
with the live API tier not running at all. -/
theorem api_search_always_caches (isin_index : Option IsinIndex)
    (cache : NameCache) (score : String → String → ℚ)
    (candidatesOf parentsOf : String → List (String × String))
    (symbol name : String) (isin : Option String) (err : String)
    (hmiss : lookup_by_isin isin_index isin = none)
    (habsent : cache name = none)
    (hdeg : candidatesOf name = degradedSearch (Except.error err)) :
    (∀ candidatesOf2 : String → List (String × String),
        (fetch_equity isin_index cache score candidatesOf2 parentsOf
            symbol name isin).2.1 name
          = some ((resolve_lei_from_api score candidatesOf2 parentsOf
              name).getD NO_MATCH_SENTINEL))
    ∧ (fetch_equity isin_index cache score candidatesOf parentsOf
          symbol name isin).2.1 name
        = some NO_MATCH_SENTINEL
    ∧ fetch_equity isin_index
          ((fetch_equity isin_index cache score candidatesOf parentsOf
            symbol name isin).2.1)
          score candidatesOf parentsOf symbol name isin
        = (Except.error (noLeiMessage name isin),
           (fetch_equity isin_index cache score candidatesOf parentsOf
             symbol name isin).2.1,
           true, false) := by
  have hdeg2 : candidatesOf name = [] := by
    rw [hdeg]
    rfl
  have hresolve : resolve_lei_from_api score candidatesOf parentsOf name
      = none := by
    rw [resolve_lei_from_api, hdeg2]
    rfl
  have hwrite : ∀ candidatesOf2 : String → List (String × String),
      (fetch_equity isin_index cache score candidatesOf2 parentsOf
          symbol name isin).2.1
        = cache_name_result cache name
            (resolve_lei_from_api score candidatesOf2 parentsOf name) := by
    intro candidatesOf2
    cases hr : resolve_lei_from_api score candidatesOf2 parentsOf name with
    | none =>
      simp [fetch_equity, hmiss, lookup_by_name, habsent, search_gleif_api, hr]
    | some lei =>
      simp [fetch_equity, hmiss, lookup_by_name, habsent, search_gleif_api, hr]
  have hcacheval : ∀ candidatesOf2 : String → List (String × String),
      (fetch_equity isin_index cache score candidatesOf2 parentsOf
          symbol name isin).2.1 name
        = some ((resolve_lei_from_api score candidatesOf2 parentsOf
            name).getD NO_MATCH_SENTINEL) := by
    intro candidatesOf2
    rw [hwrite candidatesOf2]
    cases hr : resolve_lei_from_api score candidatesOf2 parentsOf name <;>
      simp [cache_name_result, hr]
  have hsent : (fetch_equity isin_index cache score candidatesOf parentsOf
      symbol name isin).2.1 name = some NO_MATCH_SENTINEL := by
    rw [hcacheval candidatesOf, hresolve]
    rfl
  refine ⟨hcacheval, hsent, ?_⟩
  exact sentinel_fetch_eq isin_index
    ((fetch_equity isin_index cache score candidatesOf parentsOf
      symbol name isin).2.1)
    score candidatesOf parentsOf symbol name isin hsent hmiss

/-- Witness for claim C10: empty index, cold cache, search degraded by a
transport error. -/
theorem api_search_always_caches_witness :
    (fetch_equity none emptyNameCache score70 emptySearchTier
        emptySearchTier "SYM" "Ghost Corp" none).2.1 "Ghost Corp"
      = some NO_MATCH_SENTINEL
    ∧ fetch_equity none
          ((fetch_equity none emptyNameCache score70 emptySearchTier
            emptySearchTier "SYM" "Ghost Corp" none).2.1)
          score70 emptySearchTier emptySearchTier "SYM" "Ghost Corp" none
        = (Except.error (noLeiMessage "Ghost Corp" none),
           (fetch_equity none emptyNameCache score70 emptySearchTier
             emptySearchTier "SYM" "Ghost Corp" none).2.1,
           true, false) := by
  have h := api_search_always_caches none emptyNameCache score70
    emptySearchTier emptySearchTier "SYM" "Ghost Corp" none "boom"
    rfl rfl rfl
  exact ⟨h.2.1, h.2.2⟩

/-! ## Claim C1 — the double-checked lock runs the download exactly once -/

/-- Two incompatible Bool equations prove anything. -/
theorem bool_contra {C : Prop} {b : Bool} (h1 : b = true) (h2 : b = false) :
    C := by
  rw [h1] at h2
  exact Bool.noConfusion h2

/-- Updating a task to a non-protected program counter cannot create a
second lock holder. -/
theorem crit_unique_update_not {n : Nat} {pc : Fin n → TaskPc} {i : Fin n}
    {v : TaskPc} (hnew : ¬ inCritical v)
    (huniq : ∀ a b, inCritical (pc a) → inCritical (pc b) → a = b) :
    ∀ a b, inCritical (Function.update pc i v a) →
      inCritical (Function.update pc i v b) → a = b := by
  intro a b ha hb
  by_cases hai : a = i
  · subst hai
    rw [Function.update_same] at ha
    exact absurd ha hnew
  · by_cases hbi : b = i
    · subst hbi
      rw [Function.update_same] at hb
      exact absurd hb hnew
    · rw [Function.update_noteq hai] at ha
      rw [Function.update_noteq hbi] at hb
      exact huniq a b ha hb

/-- Moving a non-protected task to a non-protected counter does not change
whether some task is in the protected region. -/
theorem exists_inCritical_update_iff {n : Nat} {pc : Fin n → TaskPc}
    {i : Fin n} {v : TaskPc} (hold : ¬ inCritical (pc i))
    (hnew : ¬ inCritical v) :
    (∃ j, inCritical (Function.update pc i v j)) ↔
      ∃ j, inCritical (pc j) := by
  constructor
  · rintro ⟨j, hj⟩
    by_cases hji : j = i
    · subst hji
      rw [Function.update_same] at hj
      exact absurd hj hnew
    · rw [Function.update_noteq hji] at hj
      exact ⟨j, hj⟩
  · rintro ⟨j, hj⟩
    by_cases hji : j = i
    · subst hji
      exact absurd hj hold
    · refine ⟨j, ?_⟩
      rw [Function.update_noteq hji]
      exact hj

/-- Releasing the unique lock holder leaves nobody in the protected
region. -/
theorem no_inCritical_update_done {n : Nat} {pc : Fin n → TaskPc} {i : Fin n}
    (hcrit : inCritical (pc i))
    (huniq : ∀ a b, inCritical (pc a) → inCritical (pc b) → a = b) :
    ¬ ∃ j, inCritical (Function.update pc i TaskPc.done j) := by
  rintro ⟨j, hj⟩
  by_cases hji : j = i
  · subst hji
    rw [Function.update_same] at hj
    simp [inCritical] at hj
  · rw [Function.update_noteq hji] at hj
    exact hji (huniq j i hj hcrit)

/-- Pointwise inequality is preserved by an update to a different value. -/
theorem forall_update_ne {n : Nat} {pc : Fin n → TaskPc} {i : Fin n}
    {v c : TaskPc} (hv : v ≠ c) (hall : ∀ j, pc j ≠ c) :
    ∀ j, Function.update pc i v j ≠ c := by
  intro j
  by_cases hji : j = i
  · subst hji
    rw [Function.update_same]
    exact hv
  · rw [Function.update_noteq hji]
    exact hall j

/-- The cold state satisfies the invariant. -/
theorem ensureInv_init (n : Nat) (res : Option IsinIndex) :
    EnsureInv n res (initState n) := by
  refine ⟨?_, ?_, ?_, ?_, ?_, ?_, ?_, ?_, ?_⟩
  · simp [initState, inCritical]
  · intro i j hi hj
    simp [initState, inCritical] at hi
  · intro h
    simp [initState] at h
  · intro h
    simp [initState] at h
  · intro h
    simp [initState] at h
  · intro _ j hj
    simp [initState] at hj
  · intro _ _
    rfl
  · intro _ j hj
    simp [initState] at hj
  · intro _
    rfl

/-- Every atomic step of `_ensure_index_loaded` preserves the invariant. -/
theorem ensureInv_step {n : Nat} {res : Option IsinIndex}
    {s t : FeedState n} (inv : EnsureInv n res s)
    (hstep : EnsureStep n res s t) : EnsureInv n res t := by
  cases hstep with
  | fastPathHit i hpc hloaded =>
    refine ⟨?_, crit_unique_update_not (by simp [inCritical])
      inv.crit_unique, ?_, ?_, ?_, ?_, ?_, ?_, ?_⟩
    · rw [show ({ s with pc := Function.update s.pc i TaskPc.done } :
          FeedState n).lockHeld = s.lockHeld from rfl]
      rw [exists_inCritical_update_iff (by rw [hpc]; simp [inCritical])
        (by simp [inCritical])]
      exact inv.lock_iff
    · intro h
      exact inv.loaded_downloads h
    · intro h
      exact inv.loaded_index h
    · intro h
      exact forall_update_ne (by decide) (inv.loaded_no_dl h)
    · intro hl j hj
      exact bool_contra hloaded hl
    · intro hl _
      exact bool_contra hloaded hl
    · intro hl j
      exact bool_contra hloaded hl
    · intro hl
      exact bool_contra hloaded hl
  | fastPathMiss i hpc hloaded =>
    refine ⟨?_, crit_unique_update_not (by simp [inCritical])
      inv.crit_unique, ?_, ?_, ?_, ?_, ?_, ?_, ?_⟩
    · rw [show ({ s with pc := Function.update s.pc i TaskPc.waiting } :
          FeedState n).lockHeld = s.lockHeld from rfl]
      rw [exists_inCritical_update_iff (by rw [hpc]; simp [inCritical])
        (by simp [inCritical])]
      exact inv.lock_iff
    · intro h
      exact bool_contra h hloaded
    · intro h
      exact bool_contra h hloaded
    · intro h
      exact bool_contra h hloaded
    · intro _ j hj
      by_cases hji : j = i
      · subst hji
        simp only [Function.update_same] at hj
        exact absurd hj (by decide)
      · simp only [Function.update_noteq hji] at hj
        exact inv.unloaded_dl hloaded j hj
    · intro _ hall
      refine inv.unloaded_nodl hloaded ?_
      intro j
      by_cases hji : j = i
      · subst hji
        rw [hpc]
        exact (by decide)
      · have hj := hall j
        simp only [Function.update_noteq hji] at hj
        exact hj
    · intro _ j
      by_cases hji : j = i
      · subst hji
        simp only [Function.update_same]
        exact (by decide)
      · simp only [Function.update_noteq hji]
        exact inv.unloaded_nodone hloaded j
    · intro _
      exact inv.unloaded_index hloaded
  | acquireLock i hpc hlock =>
    have hnone : ∀ j, ¬ inCritical (s.pc j) := by
      intro j hj
      exact bool_contra (inv.lock_iff.mpr ⟨j, hj⟩) hlock
    refine ⟨?_, ?_, ?_, ?_, ?_, ?_, ?_, ?_, ?_⟩
    · constructor
      · intro _
        refine ⟨i, ?_⟩
        simp only [Function.update_same]
        exact Or.inl rfl
      · intro _
        rfl
    · intro a b ha hb
      have ha2 : a = i := by
        by_cases hai : a = i
        · exact hai
        · simp only [Function.update_noteq hai] at ha
          exact absurd ha (hnone a)
      have hb2 : b = i := by
        by_cases hbi : b = i
        · exact hbi
        · simp only [Function.update_noteq hbi] at hb
          exact absurd hb (hnone b)
      rw [ha2, hb2]
    · intro h
      exact inv.loaded_downloads h
    · intro h
      exact inv.loaded_index h
    · intro h
      exact forall_update_ne (by decide) (inv.loaded_no_dl h)
    · intro hl j hj
      by_cases hji : j = i
      · subst hji
        simp only [Function.update_same] at hj
        exact absurd hj (by decide)
      · simp only [Function.update_noteq hji] at hj
        exact inv.unloaded_dl hl j hj
    · intro hl hall
      refine inv.unloaded_nodl hl ?_
      intro j
      by_cases hji : j = i
      · subst hji
        rw [hpc]
        exact (by decide)
      · have hj := hall j
        simp only [Function.update_noteq hji] at hj
        exact hj
    · intro hl j
      by_cases hji : j = i
      · subst hji
        simp only [Function.update_same]
        exact (by decide)
      · simp only [Function.update_noteq hji]
        exact inv.unloaded_nodone hl j
    · intro hl
      exact inv.unloaded_index hl
  | recheckHit i hpc hloaded =>
    have hcrit : inCritical (s.pc i) := Or.inl hpc
    refine ⟨?_, crit_unique_update_not (by simp [inCritical])
      inv.crit_unique, ?_, ?_, ?_, ?_, ?_, ?_, ?_⟩
    · constructor
      · intro h
        exact Bool.noConfusion h
      · intro hex
        exact absurd hex (no_inCritical_update_done hcrit inv.crit_unique)
    · intro h
      exact inv.loaded_downloads h
    · intro h
      exact inv.loaded_index h
    · intro h
      exact forall_update_ne (by decide) (inv.loaded_no_dl h)
    · intro hl j hj
      exact bool_contra hloaded hl
    · intro hl _
      exact bool_contra hloaded hl
    · intro hl j
      exact bool_contra hloaded hl
    · intro hl
      exact bool_contra hloaded hl
  | startDownload i hpc hloaded =>
    have hcrit : inCritical (s.pc i) := Or.inl hpc
    have hlock : s.lockHeld = true := inv.lock_iff.mpr ⟨i, hcrit⟩
    have hnodl : ∀ j, s.pc j ≠ TaskPc.downloading := by
      intro j hj
      have hji : j = i := inv.crit_unique j i (Or.inr hj) hcrit
      rw [hji, hpc] at hj
      exact absurd hj (by decide)
    have hdl0 : s.downloads = 0 := inv.unloaded_nodl hloaded hnodl
    refine ⟨?_, ?_, ?_, ?_, ?_, ?_, ?_, ?_, ?_⟩
    · constructor
      · intro _
        refine ⟨i, ?_⟩
        simp only [Function.update_same]
        exact Or.inr rfl
      · intro _
        exact hlock
    · intro a b ha hb
      have ha2 : a = i := by
        by_cases hai : a = i
        · exact hai
        · simp only [Function.update_noteq hai] at ha
          exact inv.crit_unique a i ha hcrit
      have hb2 : b = i := by
        by_cases hbi : b = i
        · exact hbi
        · simp only [Function.update_noteq hbi] at hb
          exact inv.crit_unique b i hb hcrit
      rw [ha2, hb2]
    · intro h
      exact bool_contra h hloaded
    · intro h
      exact bool_contra h hloaded
    · intro h
      exact bool_contra h hloaded
    · intro _ j hj
      show s.downloads + 1 = 1
      rw [hdl0]
    · intro _ hall
      have hj := hall i
      simp only [Function.update_same] at hj
      exact absurd rfl hj
    · intro hl j
      by_cases hji : j = i
      · subst hji
        simp only [Function.update_same]
        exact (by decide)
      · simp only [Function.update_noteq hji]
        exact inv.unloaded_nodone hl j
    · intro hl
      exact inv.unloaded_index hl
  | finishDownload i hpc =>
    have hcrit : inCritical (s.pc i) := Or.inr hpc
    refine ⟨?_, crit_unique_update_not (by simp [inCritical])
      inv.crit_unique, ?_, ?_, ?_, ?_, ?_, ?_, ?_⟩
    · constructor
      · intro h
        exact Bool.noConfusion h
      · intro hex
        exact absurd hex (no_inCritical_update_done hcrit inv.crit_unique)
    · intro _
      have hlf : s.loaded = false := by
        cases hl : s.loaded with
        | false => rfl
        | true => exact absurd hpc (inv.loaded_no_dl hl i)
      exact inv.unloaded_dl hlf i hpc
    · intro _
      rfl
    · intro _ j
      by_cases hji : j = i
      · subst hji
        simp only [Function.update_same]
        exact (by decide)
      · simp only [Function.update_noteq hji]
        intro hj
        exact hji (inv.crit_unique j i (Or.inr hj) hcrit)
    · intro hl j hj
      exact Bool.noConfusion hl
    · intro hl _
      exact Bool.noConfusion hl
    · intro hl j
      exact Bool.noConfusion hl
    · intro hl
      exact Bool.noConfusion hl

/-- The invariant holds in every state reachable from the cold state. -/
theorem ensureInv_reach {n : Nat} {res : Option IsinIndex} {s : FeedState n}
    (h : EnsureReach n res (initState n) s) : EnsureInv n res s := by
  induction h with
  | refl => exact ensureInv_init n res
  | tail hsteps hstep ih => exact ensureInv_step ih hstep

/-- Claim C1: under any interleaving of `n` concurrent `fetch_equity`
callers on a cold feed, once every task has passed
`_ensure_index_loaded`, the index download ran exactly once, the shared
index holds the (single) download result, and every caller observes that
same index — so each resolves its identifiers against the one downloaded
index. -/
theorem ensure_index_loaded_once (n : Nat) (res : Option IsinIndex)
    (s : FeedState n) (hn : 0 < n)
    (hreach : EnsureReach n res (initState n) s)
    (hdone : ∀ i, s.pc i = TaskPc.done) :
    s.downloads = 1 ∧ s.isinIndex = res
    ∧ ∀ (cache : NameCache) (score : String → String → ℚ)
        (candidatesOf parentsOf : String → List (String × String))
        (symbol name : String) (isin : Option String),
        fetch_equity s.isinIndex cache score candidatesOf parentsOf
            symbol name isin
          = fetch_equity res cache score candidatesOf parentsOf
            symbol name isin := by
  have inv := ensureInv_reach hreach
  have hloaded : s.loaded = true := by
    cases hl : s.loaded with
    | true => rfl
    | false => exact absurd (hdone ⟨0, hn⟩) (inv.unloaded_nodone hl ⟨0, hn⟩)
  refine ⟨inv.loaded_downloads hloaded, inv.loaded_index hloaded, ?_⟩
  intro cache score candidatesOf parentsOf symbol name isin
  rw [inv.loaded_index hloaded]

/-- A complete concrete interleaving of two cold callers: task 0 waits,
task 1 waits, task 0 acquires, task 0 downloads, the download finishes,
task 1 acquires, task 1 re-checks and returns. -/
theorem c1_trace : EnsureReach 2 c1Res c1S0 c1S7 := by
  refine Relation.ReflTransGen.head
    (EnsureStep.fastPathMiss c1S0 0 rfl rfl) ?_
  refine Relation.ReflTransGen.head
    (EnsureStep.fastPathMiss c1S1 1 rfl rfl) ?_
  refine Relation.ReflTransGen.head
    (EnsureStep.acquireLock c1S2 0 rfl rfl) ?_
  refine Relation.ReflTransGen.head
    (EnsureStep.startDownload c1S3 0 rfl rfl) ?_
  refine Relation.ReflTransGen.head
    (EnsureStep.finishDownload c1S4 0 rfl) ?_
  refine Relation.ReflTransGen.head
    (EnsureStep.acquireLock c1S5 1 rfl rfl) ?_
  exact Relation.ReflTransGen.single
    (EnsureStep.recheckHit c1S6 1 rfl rfl)

/-- Witness for claim C1 on the concrete two-task interleaving. -/
theorem ensure_index_loaded_once_witness :
    c1S7.downloads = 1 ∧ c1S7.isinIndex = c1Res := by
  have h := ensure_index_loaded_once 2 c1Res c1S7 (by norm_num)
    c1_trace (by decide)
  exact ⟨h.1, h.2.1⟩

end GleifSpec
